import Mathlib

/-!
Verification development for the bridge-detection core (`BridgeDetector.cpp`).

The geometry kernel (Clipper-style polygon algebra: offsets, boolean
operations, line clipping, rotation, `atan2`-based directions) is an external
collaborator of the core and is not part of the analysed sources; following
the interface contract, kernel results are passed in as explicit data
(containment predicates for anchor regions, clipped-line lists per sweep
angle, precomputed lengths).  All control flow and arithmetic of the core
itself is translated directly from the source.

Floating-point `double` values of the source are modelled as exact rationals;
`PI` is modelled by the exact rational value of the IEEE-754 double nearest
to pi, which is the value the compiled constant holds.
-/

namespace BridgeSpec

/-- Integer-coordinate 2D point (`Point` / `Vec2crd` of the source). -/
abbrev Pt := ℤ × ℤ

/-- `Line::midpoint()`: `(a + b) / 2` with componentwise C++ integer division
(truncation toward zero, hence `Int.tdiv`). -/
def pmid (p q : Pt) : Pt := (Int.tdiv (p.1 + q.1) 2, Int.tdiv (p.2 + q.2) 2)

/-- One anchor region (`ExPolygon` of `_anchor_regions`), given through the
kernel-interface containment tests the sweep uses: `polybb.contains(p)` for
the precomputed contour bounding box and `poly.contains(p)` for the
`ExPolygon` itself. -/
structure Anchor where
  bbContains : Pt → Bool
  polyContains : Pt → Bool

/-- The combined test the sweep performs on an endpoint:
`polybb.contains(p) && poly.contains(p)`. -/
def anchorHas (an : Anchor) (p : Pt) : Bool := an.bbContains p && an.polyContains p

/-- An anchor is well formed when the stored bounding box really contains the
polygon, as `Polygon::bounding_box()` guarantees for the kernel. -/
def AnchorWF (an : Anchor) : Prop := ∀ p : Pt, an.polyContains p = true → an.bbContains p = true

/-- One element of `clipped_lines = intersection_ln(lines, clip_area)`.
`a`, `b` are the endpoints; `len` is the kernel-computed Euclidean length
`line.length()`; `nInter` is the number of segments
`intersection_ln(line, to_polygons(_anchor_regions))` returns for this line
(used only by the third probe stage). -/
structure ClippedLine where
  a : Pt
  b : Pt
  len : ℚ
  nInter : ℕ

/-- `size_t(-1)`, the value of `line_a_anchor_idx` / `line_b_anchor_idx`
before any anchor is found. -/
def sentinelIdx : ℕ := 18446744073709551615

/-- The per-endpoint anchor search of the primary sweep: for each anchor `i`,
record `i` for an endpoint the anchor contains, and break out of the loop as
soon as `line_a_anchor_idx < clipped_lines.size() &&
line_b_anchor_idx < clipped_lines.size()` — the source compares the indices
against `nLines = clipped_lines.size()`, not against the anchor count. -/
def anchorScan (nLines : ℕ) (a b : Pt) : ℕ → List Anchor → ℕ → ℕ → ℕ × ℕ
  | _, [], ia, ib => (ia, ib)
  | i, an :: rest, ia, ib =>
    let ia' := if anchorHas an a then i else ia
    let ib' := if anchorHas an b then i else ib
    if ia' < nLines ∧ ib' < nLines then (ia', ib')
    else anchorScan nLines a b (i + 1) rest ia' ib'

/-- Probe stage (i): loop over all anchors and set `good_line = true` (and
break) at the first anchor with
`!polybb.contains(middle_point) || !poly.contains(middle_point)`. -/
def probeStage1 (anchors : List Anchor) (m : Pt) : Bool :=
  anchors.any fun an => !an.bbContains m || !an.polyContains m

/-- Probe stage (ii): same loop over both quarter points `middle_line.a` and
`middle_line.b`, breaking at the first failed containment of either. -/
def probeStage2 (anchors : List Anchor) (qa qb : Pt) : Bool :=
  anchors.any fun an =>
    (!an.bbContains qa || !an.polyContains qa) || (!an.bbContains qb || !an.polyContains qb)

/-- Classification of one clipped segment by the primary sweep
(the body of the `clipped_lines` loop): endpoint anchor search, the
`found`/`same anchor` tests, and the three-stage probe guarded by
`len > spacing * 10` and `len > spacing * 40`. -/
def classifyPrimary (anchors : List Anchor) (nLines : ℕ) (spacing : ℚ)
    (L : ClippedLine) : Bool :=
  let idx := anchorScan nLines L.a L.b 0 anchors sentinelIdx sentinelIdx
  if idx.1 < nLines ∧ idx.2 < nLines then
    if idx.1 = idx.2 then
      let m := pmid L.a L.b
      let g1 := probeStage1 anchors m
      let g2 := g1 || (decide (L.len > spacing * 10) &&
        probeStage2 anchors (pmid L.a m) (pmid L.b m))
      g2 || (decide (L.len > spacing * 40) && decide (1 < L.nInter))
    else
      true
  else
    false

/-- Classification of one clipped segment by the fallback sweep:
`expolygons_contain(_anchor_regions, line.a) ||
expolygons_contain(_anchor_regions, line.b)`.  Modelled from the spec:
`expolygons_contain` (a kernel utility outside the analysed sources) holds
when some anchor `ExPolygon` contains the point, so a segment is anchored iff
at least one endpoint lies in any anchor region. -/
def classifyFallback (anchors : List Anchor) (L : ClippedLine) : Bool :=
  anchors.any (·.polyContains L.a) || anchors.any (·.polyContains L.b)

/-- The exact rational value of the IEEE-754 double nearest to pi, i.e. the
value of the source's `PI` constant: `884279719003555 * 2^-48`. -/
def piD : ℚ := 884279719003555 / 281474976710656

/-- `this->resolution = PI / 90` (2 degrees). -/
def resolutionQ : ℚ := piD / 90

/-- Candidate direction as enumerated (`BridgeDirection(angle, along)`):
just the angle and `along_perimeter_length`. -/
structure BD0 where
  angle : ℚ
  along : ℚ
deriving DecidableEq

instance : Inhabited BD0 := ⟨⟨-1, 0⟩⟩

/-- `BridgeDirection` with its accumulators.  Modelled from the spec: the
record declaration lives in the header, outside the analysed sources; per the
spec all accumulators start at zero and `along_perimeter_length` is zero
unless set by the enumerator. -/
structure BridgeDirection where
  angle : ℚ := -1
  along_perimeter_length : ℚ := 0
  total_length_anchored : ℚ := 0
  total_length_free : ℚ := 0
  max_length_anchored : ℚ := 0
  max_length_free : ℚ := 0
  median_length_anchor : ℚ := 0
  nb_lines_anchored : ℕ := 0
  nb_lines_free : ℕ := 0
deriving DecidableEq

instance : Inhabited BridgeDirection := ⟨{}⟩

/-- `BridgeDirection(angle)` — a fresh candidate for an override angle. -/
def mkBD (a : ℚ) : BridgeDirection := { angle := a }

/-- A fresh candidate from an enumerated direction. -/
def ofBD0 (b : BD0) : BridgeDirection := { angle := b.angle, along_perimeter_length := b.along }

/-- `std::sort` on `coordf_t` values (used for `dist_anchored` and the global
stat vectors). -/
def sortQ (l : List ℚ) : List ℚ := l.insertionSort (· ≤ ·)

/-- Accumulate one classified segment into the candidate's statistics and the
`dist_anchored` list (the `good_line` / `else` branches of the sweep loops). -/
def accumLine (good : Bool) (len : ℚ) : BridgeDirection × List ℚ → BridgeDirection × List ℚ
  | (c, dist) =>
    if good then
      ({ c with
          total_length_anchored := c.total_length_anchored + len
          max_length_anchored := max c.max_length_anchored len
          nb_lines_anchored := c.nb_lines_anchored + 1 }, dist ++ [len])
    else
      ({ c with
          total_length_free := c.total_length_free + len
          max_length_free := max c.max_length_free len
          nb_lines_free := c.nb_lines_free + 1 }, dist)

/-- After a candidate's sweep: `continue` when
`total_length_anchored == 0 || nb_lines_anchored == 0`, otherwise set
`have_coverage` and the median `dist_anchored[n/2]` of the sorted list. -/
def postSweep : BridgeDirection × List ℚ → BridgeDirection × Bool
  | (c, dist) =>
    if c.total_length_anchored = 0 ∨ c.nb_lines_anchored = 0 then (c, false)
    else
      (if dist.isEmpty then c
       else { c with median_length_anchor := (sortQ dist).getD (dist.length / 2) 0 }, true)

/-- The whole per-candidate primary sweep: classify every clipped line for
the candidate's angle (with `nLines` the clipped-line count of that very
sweep) and accumulate. -/
def sweepPrimary (anchors : List Anchor) (spacing : ℚ) (clipped : List ClippedLine)
    (c : BridgeDirection) : BridgeDirection × Bool :=
  postSweep (clipped.foldl
    (fun acc L => accumLine (classifyPrimary anchors clipped.length spacing L) L.len acc)
    (c, []))

/-- The per-candidate fallback sweep (simpler classification). -/
def sweepFallback (anchors : List Anchor) (clipped : List ClippedLine)
    (c : BridgeDirection) : BridgeDirection × Bool :=
  postSweep (clipped.foldl
    (fun acc L => accumLine (classifyFallback anchors L) L.len acc)
    (c, []))

/-- Input of a `detect_angle` run.  `enum b` is the result of
`bridge_direction_candidates(b)`; `clip1 θ` (resp. `clip2 θ`) is the clipped
sweep-line list `intersection_ln(lines, clip_area)` the kernel produces for
angle `θ` in the primary (resp. fallback) pass — in the primary pass the
generated lines cover `get_extents_rotated(_anchor_regions, -θ)`, in the
fallback pass `get_extents_rotated(clip_area, -θ)`, which is why the two
oracles are distinct. -/
structure DAInput where
  edgesEmpty : Bool
  anchors : List Anchor
  spacing : ℚ
  enum : Bool → List BD0
  clip1 : ℚ → List ClippedLine
  clip2 : ℚ → List ClippedLine

/-- The initial candidate list: enumerate unless a non-zero override is
given, in which case the list is `[BridgeDirection(override)]`. -/
def primaryCands (inp : DAInput) (ov : ℚ) : List BridgeDirection :=
  if ov = 0 then (inp.enum false).map ofBD0 else [mkBD ov]

/-- Run one pass over all candidates, or-ing the per-candidate
`have_coverage` contributions. -/
def runPass (sweep : BridgeDirection → BridgeDirection × Bool)
    (cands : List BridgeDirection) : List BridgeDirection × Bool :=
  ((cands.map fun c => sweep c).map Prod.fst,
   (cands.map fun c => sweep c).any Prod.snd)

/-- The candidate list in effect after the primary pass and, when no
candidate produced coverage, the fallback pass.  With a non-zero override the
fallback `emplace_back` appends a fresh `BridgeDirection(override)` to the
existing (already swept) list instead of replacing it, and the fallback loop
then sweeps every candidate of that list again. -/
def detectCandsHave (inp : DAInput) (ov : ℚ) : List BridgeDirection × Bool :=
  let p1 := runPass
    (fun c => sweepPrimary inp.anchors inp.spacing (inp.clip1 c.angle) c)
    (primaryCands inp ov)
  if p1.2 then p1
  else
    let candsF :=
      if ov = 0 then (inp.enum true).map ofBD0 else p1.1 ++ [mkBD ov]
    runPass (fun c => sweepFallback inp.anchors (inp.clip2 c.angle) c) candsF

/-- The candidate list the scoring/selection stage works on. -/
def detectCands (inp : DAInput) (ov : ℚ) : List BridgeDirection :=
  (detectCandsHave inp ov).1

/-- The per-candidate `coverage` scores: global extremes are taken as front
and back of the sorted `all_median_length` / `all_max_length` vectors built
from every candidate, then
`70·ratio_anchored + 15·ratio_median + 15·ratio_max + 5·[along > 0]`. -/
def scores (cs : List BridgeDirection) : List ℚ :=
  let allMed := sortQ (cs.map (·.median_length_anchor))
  let allMax := sortQ (cs.map (·.max_length_anchored))
  let minMed := allMed.headD 0
  let maxMed := allMed.getLastD 0
  let minMax := allMax.headD 0
  let maxMax := allMax.getLastD 0
  cs.map fun c =>
    70 * (c.total_length_anchored / (c.total_length_anchored + c.total_length_free))
    + 15 * (1 - (c.median_length_anchor - minMed) / max 1 (maxMed - minMed))
    + 15 * (1 - (c.max_length_anchored - minMax) / max 1 (maxMax - minMax))
    + (if 0 < c.along_perimeter_length then 5 else 0)

/-- `i_best`: first index of strictly maximal score (the loop starts at 1,
which is equivalent to starting at 0 since a value is never strictly greater
than itself). -/
def selectBest (covs : List ℚ) : ℕ :=
  (List.range covs.length).foldl
    (fun ibest i => if covs.getD ibest 0 < covs.getD i 0 then i else ibest) 0

/-- Final normalization of the chosen angle:
`if (angle >= PI) angle -= PI`. -/
def normQ (a : ℚ) : ℚ := if piD ≤ a then a - piD else a

/-- `x mod m` for rationals, landing in `[0, m)` for `m > 0`. -/
def qmod (x m : ℚ) : ℚ := m * Int.fract (x / m)

/-- Modelled from the spec: `Slic3r::Geometry::directions_parallel(a, b,
tol)` lives outside the analysed sources; per the spec it "compares
`|(a − b) mod π|` against `tol`" (angular equivalence modulo pi within
`tol`). -/
def dirsParallel (a b tol : ℚ) : Bool := decide (qmod |a - b| piD ≤ tol)

/-- Pass A of the deduplication (prefer perimeter-derived candidates over
uniform samples, tolerance `resolution`).  The source's erase-based loop is
re-expressed structurally: `prev` is the element at `i-1`, the list argument
the elements from `i` on; erasing `angles[i]` keeps `prev` and recompares it
with the next element, erasing `angles[i-1]` promotes `angles[i]` to `prev`
without recomparing backwards — exactly the `--i; continue` behaviour. -/
def passA (tol : ℚ) : BD0 → List BD0 → List BD0
  | prev, [] => [prev]
  | prev, h :: t =>
    if 0 < prev.along ∧ h.along = 0 ∧ dirsParallel h.angle prev.angle tol then
      passA tol prev t
    else if 0 < h.along ∧ prev.along = 0 ∧ dirsParallel h.angle prev.angle tol then
      passA tol h t
    else
      prev :: passA tol h t

/-- Pass B of the deduplication (merge parallel neighbours, keeping the one
with the larger `along_perimeter_length`), with the same structural
re-expression of the erase loop as `passA`. -/
def passB (tol : ℚ) : BD0 → List BD0 → List BD0
  | prev, [] => [prev]
  | prev, h :: t =>
    if dirsParallel h.angle prev.angle tol then
      if h.along < prev.along then passB tol prev t
      else passB tol h t
    else
      prev :: passB tol h t

/-- Pass A over a whole candidate list. -/
def passArun (tol : ℚ) : List BD0 → List BD0
  | [] => []
  | h :: t => passA tol h t

/-- Pass B over a whole candidate list. -/
def passBrun (tol : ℚ) : List BD0 → List BD0
  | [] => []
  | h :: t => passB tol h t

/-- The `while (angles.size() > 200)` loop: double the tolerance and re-run
pass B.  The recursion is fueled; `dedupFuel` below provides enough fuel for
the loop to reach its exit condition (proved in the theorems), so the fueled
function agrees with the source's unbounded loop. -/
def shrinkIter : ℕ → ℚ → List BD0 → ℚ × List BD0
  | 0, tol, l => (tol, l)
  | n + 1, tol, l =>
    if 200 < l.length then shrinkIter n (tol * 2) (passBrun (tol * 2) l)
    else (tol, l)

/-- Fuel bound for `shrinkIter`: once the tolerance reaches `piD` every pair
of directions is parallel and pass B collapses the list. -/
def dedupFuel (tol : ℚ) : ℕ := (⌈piD / tol⌉).toNat + 2

/-- `std::sort` of the candidates by angle (the comparator of the source);
the source's sort is unstable, so the order among equal angles is
unspecified there and a stable sort is a legitimate refinement. -/
def sortBD (l : List BD0) : List BD0 := l.insertionSort (fun u v => u.angle ≤ v.angle)

instance : IsTotal BD0 (fun u v => u.angle ≤ v.angle) := ⟨fun a b => le_total a.angle b.angle⟩

instance : IsTrans BD0 (fun u v => u.angle ≤ v.angle) := ⟨fun _ _ _ h1 h2 => le_trans h1 h2⟩

/-- The gap relation maintained between adjacent surviving candidates of
pass B at tolerance `tol`: the angle gap exceeds the tolerance and stays
within one half-turn. -/
def gapR (tol : ℚ) (u v : BD0) : Prop :=
  tol < v.angle - u.angle ∧ v.angle - u.angle ≤ piD

/-- The list the deduplication of `bridge_direction_candidates` starts
from after sorting, pass A (tolerance `resolution`) and the first pass B
(tolerance `resolution / 8`). -/
def preShrink (l : List BD0) : List BD0 :=
  passBrun (resolutionQ / 8) (passArun resolutionQ (sortBD l))

/-- The complete deduplication pipeline of `bridge_direction_candidates`
applied to the enumerated candidates: sort, pass A, pass B, the
tolerance-doubling loop, and the final front/back merge.  Returns the final
tolerance (`min_resolution`) together with the final list. -/
def dedup (l : List BD0) : ℚ × List BD0 :=
  let s := preShrink l
  let r := shrinkIter (dedupFuel (resolutionQ / 8)) (resolutionQ / 8) s
  (r.1,
   if 1 < r.2.length ∧
       dirsParallel (r.2.headD default).angle (r.2.getLastD default).angle r.1 then
     r.2.dropLast
   else r.2)

/-- One boundary segment, as produced for `unsupported_edges` by
`to_lines(diff_pl(to_polylines(expolygon), grown_lower))`. -/
structure LineSeg where
  a : Pt
  b : Pt
deriving DecidableEq

/-- A polyline is an ordered point list. -/
abbrev PolylineM := List Pt

/-- The filter-and-emit loop of `unsupported_edges` for one `ExPolygon`:
keep a segment unless `directions_parallel(line.direction(), angle)` (two
argument form, tolerance 0), and emit it as a two-point polyline.
`dirOf` is the kernel's `Line::direction()` (an `atan2`-based value in
`[0, π)`), passed in as data. -/
def unsupportedFilter (dirOf : LineSeg → ℚ) (angle : ℚ) (segs : List LineSeg) :
    List PolylineM :=
  segs.filterMap fun l =>
    if dirsParallel (dirOf l) angle 0 then none else some [l.a, l.b]

/-- `unsupported_edges(angle, Polylines*)`: default the angle to the stored
one, return with the output vector untouched when no angle is available,
otherwise append the filtered segments of every region `ExPolygon`
(`udata` holds the kernel-computed unsupported segment list per region). -/
def unsupportedEdgesInto (storedAngle : ℚ) (udata : List (List LineSeg))
    (dirOf : LineSeg → ℚ) (angle : ℚ) (acc : List PolylineM) : List PolylineM :=
  let ang := if angle = -1 then storedAngle else angle
  if ang = -1 then acc
  else acc ++ (udata.map (unsupportedFilter dirOf ang)).flatten

/-- The value-returning overload of `unsupported_edges`: run the
out-parameter overload on a freshly constructed empty vector. -/
def unsupportedEdgesVal (storedAngle : ℚ) (udata : List (List LineSeg))
    (dirOf : LineSeg → ℚ) (angle : ℚ) : List PolylineM :=
  unsupportedEdgesInto storedAngle udata dirOf angle []

/-- A polygon as a point ring. -/
abbrev PolygonM := List Pt

/-- `coverage(angle, precise)` at the level the error-handling claims need:
default the angle to the stored one and return empty when none is available;
otherwise keep every trapezoid with `n_supported >= 2`, union the kept ones
and rotate back.  `trapsOf θ` is the kernel-computed list of trapezoids of
the rotated, inflated regions together with their support counts
(`n_supported`, after the precise-mode snapping); `uni` and `rotBack` are
the kernel's `union_` and `polygons_rotate`. -/
def coverageM (storedAngle : ℚ) (trapsOf : ℚ → List (PolygonM × ℕ))
    (uni : List PolygonM → List PolygonM)
    (rotBack : ℚ → List PolygonM → List PolygonM) (angle : ℚ) : List PolygonM :=
  let a := if angle = -1 then storedAngle else angle
  if a = -1 then []
  else rotBack a (uni ((trapsOf a).filterMap fun t => if 2 ≤ t.2 then some t.1 else none))

/-- `detect_angle(bridge_direction_override)`: `none` models `return false`,
`some a` models `return true` with `this->angle == a`. -/
def detect_angle (inp : DAInput) (ov : ℚ) : Option ℚ :=
  if inp.edgesEmpty || inp.anchors.isEmpty then none
  else
    let ch := detectCandsHave inp ov
    if ch.2 then
      some (normQ ((ch.1.getD (selectBest (scores ch.1)) default).angle))
    else none

/-! Concrete instantiations used by the counterexample theorems. -/

/-- A strip anchor: the whole x-axis (bounding-box test trivially true). -/
def anchorStrip : Anchor := ⟨fun _ => true, fun p => decide (p.2 = 0)⟩

/-- A far-away point anchor. -/
def anchorFar : Anchor := ⟨fun p => decide (p = (50, 50)), fun p => decide (p = (50, 50))⟩

/-- A point anchor at `(9,0)`. -/
def anchorP90 : Anchor := ⟨fun p => decide (p = (9, 0)), fun p => decide (p = (9, 0))⟩

/-- A point anchor at `(0,0)`. -/
def anchorP00 : Anchor := ⟨fun p => decide (p = (0, 0)), fun p => decide (p = (0, 0))⟩

/-- A point anchor at `(1,0)`. -/
def anchorP10 : Anchor := ⟨fun p => decide (p = (1, 0)), fun p => decide (p = (1, 0))⟩

/-- An anchor containing every point except `(1,0)`. -/
def anchorHole : Anchor := ⟨fun _ => true, fun p => !decide (p = (1, 0))⟩

/-- An anchor containing every point. -/
def anchorAll : Anchor := ⟨fun _ => true, fun _ => true⟩

/-- Run with two candidates where the second produces no anchored line at
all: one clipped line between two distinct point anchors plus one long free
line for angle `1/2`, a single free line for angle `1`. -/
def inpC3 : DAInput where
  edgesEmpty := false
  anchors := [anchorP00, anchorP10]
  spacing := 1
  enum := fun _ => [⟨1/2, 0⟩, ⟨1, 0⟩]
  clip1 := fun θ =>
    if θ = 1/2 then [⟨(0,0), (1,0), 1, 0⟩, ⟨(50,50), (149,50), 99, 0⟩]
    else [⟨(50,50), (150,50), 100, 0⟩]
  clip2 := fun _ => []

/-- Run whose single clipped line is anchored through the midpoint probe
(endpoints inside the anchor, midpoint outside). -/
def inpC4 : DAInput where
  edgesEmpty := false
  anchors := [anchorHole]
  spacing := 1
  enum := fun _ => []
  clip1 := fun _ => [⟨(0,0), (2,0), 2, 0⟩]
  clip2 := fun _ => []

/-- Run whose primary sweep yields no clipped line at all, so the fallback
pass is reached; the fallback sweep produces one anchored line. -/
def inpC5 : DAInput where
  edgesEmpty := false
  anchors := [anchorAll]
  spacing := 1
  enum := fun _ => []
  clip1 := fun _ => []
  clip2 := fun _ => [⟨(0,0), (3,0), 3, 0⟩]

/-- A state whose `_edges` is empty (no supporting edge found) while anchors
exist. -/
def inpC6 : DAInput where
  edgesEmpty := true
  anchors := [anchorAll]
  spacing := 1
  enum := fun _ => []
  clip1 := fun _ => []
  clip2 := fun _ => []

/-! # Theorems -/

/-- Claim C1, counterexample.  With two anchor regions, the first probe stage
marks the segment anchored although its midpoint `(1,0)` lies inside an
anchor region (the x-axis strip): the source sets `good_line` as soon as
*some* anchor fails to contain the midpoint, which the far-away second anchor
always does, so the probe does not test that the midpoint lies in *no*
anchor.  The segment is short, so the later probe stages cannot fire and the
whole classification is decided by stage (i). -/
theorem claim_C1_counterexample :
    probeStage1 [anchorStrip, anchorFar] (pmid (0,0) (2,0)) = true ∧
    ([anchorStrip, anchorFar].any fun an => anchorHas an (pmid (0,0) (2,0))) = true ∧
    classifyPrimary [anchorStrip, anchorFar] 1 1 ⟨(0,0), (2,0), 1, 0⟩ = true := by
  decide

/-- Claim C2 (code bug).  The "anchor search successful" test compares the
recorded anchor indices against `clipped_lines.size()` instead of the anchor
count.  With two anchor regions and a single clipped line whose endpoints lie
in the two distinct anchors (`a` in anchor 1, `b` in anchor 0), the line is
classified free, while the very same line with two clipped lines present is
classified anchored — the classification of a segment depends on how many
other segments the sweep produced, and endpoints lying in two distinct
anchors do not yield "anchored" as the claim states. -/
theorem claim_C2_bug :
    classifyPrimary [anchorP90, anchorP00] 1 1 ⟨(0,0), (9,0), 9, 0⟩ = false ∧
    classifyPrimary [anchorP90, anchorP00] 2 1 ⟨(0,0), (9,0), 9, 0⟩ = true := by
  decide

/-- Claim C3, counterexample.  A run returning true in which the candidate
with `total_length_anchored == 0` (angle 1) is selected as best: it is not
discarded for scoring — its zero `median_length_anchor` and
`max_length_anchored` enter the global extremes (the minima are 0, not the
anchored candidate's 1), and its score 30 beats the anchored candidate's
7/10. -/
theorem claim_C3_counterexample :
    detect_angle inpC3 0 = some 1 ∧
    (detectCands inpC3 0).map (·.total_length_anchored) = [1, 0] ∧
    selectBest (scores (detectCands inpC3 0)) = 1 ∧
    ((detectCands inpC3 0).getD (selectBest (scores (detectCands inpC3 0)))
        default).total_length_anchored = 0 ∧
    (sortQ ((detectCands inpC3 0).map (·.median_length_anchor))).headD 0 = 0 := by
  norm_num [detect_angle, detectCands, detectCandsHave, runPass, primaryCands, mkBD,
    ofBD0, sweepPrimary, sweepFallback, postSweep, accumLine, classifyPrimary,
    classifyFallback, anchorScan, probeStage1, probeStage2, anchorHas, pmid,
    sentinelIdx, sortQ, scores, selectBest, normQ, inpC3, anchorP00, anchorP10,
    List.insertionSort, List.orderedInsert, piD, Int.tdiv,
    List.range_succ, List.foldl_append, List.getD,
    Prod.ext_iff, Prod.fst_zero, Prod.snd_zero, -Prod.mk_zero_zero]

/-- Claim C4, counterexample.  With `bridge_direction_override = -1` the run
returns true and stores the angle `-1`, which does not lie in `[0, π)`: the
final normalization only subtracts π once and only when the chosen angle is
`≥ π`, so a negative (or `≥ 2π`) override escapes the interval. -/
theorem claim_C4_counterexample :
    detect_angle inpC4 (-1) = some (-1) ∧ ¬ ((0:ℚ) ≤ -1) := by
  constructor
  · norm_num [detect_angle, detectCands, detectCandsHave, runPass, primaryCands, mkBD,
      ofBD0, sweepPrimary, sweepFallback, postSweep, accumLine, classifyPrimary,
      classifyFallback, anchorScan, probeStage1, probeStage2, anchorHas, pmid,
      sentinelIdx, sortQ, scores, selectBest, normQ, inpC4, anchorHole,
      List.insertionSort, List.orderedInsert, piD, Int.tdiv,
      List.range_succ, List.foldl_append, List.getD,
      Prod.ext_iff, Prod.fst_zero, Prod.snd_zero, -Prod.mk_zero_zero]
  · norm_num

/-- Claim C5, counterexample.  With the non-zero override 1 and a primary
pass that finds no coverage, the fallback `emplace_back` appends a second
`BridgeDirection(override)` to the already-swept candidate list instead of
replacing it: at scoring time the candidate list has two elements, not one,
so the list is not `[BridgeDirection(override)]` throughout the run. -/
theorem claim_C5_counterexample :
    (detectCands inpC5 1).length = 2 ∧ detect_angle inpC5 1 = some 1 := by
  norm_num [detect_angle, detectCands, detectCandsHave, runPass, primaryCands, mkBD,
    ofBD0, sweepPrimary, sweepFallback, postSweep, accumLine, classifyPrimary,
    classifyFallback, anchorScan, probeStage1, probeStage2, anchorHas, pmid,
    sentinelIdx, sortQ, scores, selectBest, normQ, inpC5, anchorAll,
    List.insertionSort, List.orderedInsert, piD,
    List.range_succ, List.foldl_append, List.getD, Prod.mk.injEq]

/-- Claim C6, counterexample.  A state with empty `_edges` (and non-empty
anchors): `detect_angle` returns false as claimed, but `unsupported_edges`
queried with an explicit angle returns a non-empty result — the function
never consults `_edges`, so emptiness of `_edges` does not make its result
empty. -/
theorem claim_C6_counterexample :
    detect_angle inpC6 0 = none ∧
    unsupportedEdgesVal (-1) [[⟨(0,0), (5,0)⟩]] (fun _ => 0) 1 = [[(0,0), (5,0)]] ∧
    ([[((0:ℤ),(0:ℤ)), ((5:ℤ),(0:ℤ))]] : List PolylineM) ≠ [] := by
  refine ⟨by norm_num [detect_angle, inpC6], ?_, by simp⟩
  norm_num [unsupportedEdgesVal, unsupportedEdgesInto,
    unsupportedFilter, dirsParallel, qmod, piD, Int.fract, List.filterMap]

/-- Claim C10: the out-parameter overload of `unsupported_edges` appends to
the given vector (its result is the prior contents followed by exactly what
the value-returning overload computes from an empty vector), and when the
angle argument is the sentinel and no angle is stored it leaves the vector
unchanged. -/
theorem claim_C10 (storedAngle : ℚ) (udata : List (List LineSeg))
    (dirOf : LineSeg → ℚ) (angle : ℚ) (acc : List PolylineM) :
    unsupportedEdgesInto storedAngle udata dirOf angle acc
      = acc ++ unsupportedEdgesVal storedAngle udata dirOf angle ∧
    (angle = -1 → storedAngle = -1 →
      unsupportedEdgesInto storedAngle udata dirOf angle acc = acc) := by
  constructor
  · unfold unsupportedEdgesVal unsupportedEdgesInto
    by_cases h : (if angle = -1 then storedAngle else angle) = -1 <;>
      simp [h]
  · intro h1 h2
    unfold unsupportedEdgesInto
    simp [h1, h2]

/-- Witness for C10 at a concrete input: with the sentinel angle and no
stored angle the vector is returned unchanged. -/
theorem claim_C10_witness :
    unsupportedEdgesInto (-1) [] (fun _ => 0) (-1) [[(0,0)]] = [[(0,0)]] :=
  (claim_C10 (-1) [] (fun _ => 0) (-1) [[(0,0)]]).2 rfl rfl

/-- Claim C1, amended.  In the same-anchor branch, for a segment short
enough that the later probe stages cannot fire, the sweep marks the segment
anchored exactly when *some* anchor region fails to contain the midpoint
(for well-formed anchor bounding boxes this is the polygon test alone) — not
when *no* anchor region contains it; the two agree when there is a single
anchor region. -/
theorem claim_C1 (anchors : List Anchor) (nLines : ℕ) (spacing : ℚ)
    (L : ClippedLine) (hwf : ∀ an ∈ anchors, AnchorWF an)
    (hfa : (anchorScan nLines L.a L.b 0 anchors sentinelIdx sentinelIdx).1 < nLines)
    (hfb : (anchorScan nLines L.a L.b 0 anchors sentinelIdx sentinelIdx).2 < nLines)
    (heq : (anchorScan nLines L.a L.b 0 anchors sentinelIdx sentinelIdx).1
        = (anchorScan nLines L.a L.b 0 anchors sentinelIdx sentinelIdx).2)
    (hsp : 0 ≤ spacing) (hlen : ¬ spacing * 10 < L.len) :
    classifyPrimary anchors nLines spacing L = true ↔
      ∃ an ∈ anchors, an.polyContains (pmid L.a L.b) = false := by
  have h40 : ¬ spacing * 40 < L.len := fun h =>
    hlen (lt_of_le_of_lt (by nlinarith) h)
  simp only [classifyPrimary, probeStage1]
  rw [if_pos ⟨hfa, hfb⟩, if_pos heq]
  simp only [gt_iff_lt, hlen, h40, decide_False, Bool.false_and, Bool.or_false,
    List.any_eq_true, Bool.or_eq_true, Bool.not_eq_true']
  constructor
  · rintro ⟨an, hmem, h | h⟩
    · refine ⟨an, hmem, ?_⟩
      cases hp : an.polyContains (pmid L.a L.b)
      · rfl
      · exact absurd (hwf an hmem _ hp) (by simp [h])
    · exact ⟨an, hmem, h⟩
  · rintro ⟨an, hmem, h⟩
    exact ⟨an, hmem, Or.inr h⟩

/-- Witness for C1 at a concrete input: a single anchor containing both
endpoints but not the midpoint; the segment is marked anchored. -/
theorem claim_C1_witness :
    classifyPrimary [anchorHole] 1 1 ⟨(0,0), (2,0), 2, 0⟩ = true :=
  (claim_C1 [anchorHole] 1 1 ⟨(0,0), (2,0), 2, 0⟩
      (by intro an h p _; simp [anchorHole] at h; simp [h, anchorHole])
      (by decide) (by decide) (by decide) (by norm_num) (by norm_num)).mpr
    ⟨anchorHole, by simp, by decide⟩

/-- `sortQ` sorts. -/
theorem sortQ_sorted (l : List ℚ) : List.Sorted (· ≤ ·) (sortQ l) :=
  List.sorted_insertionSort _ l

/-- `sortQ` permutes. -/
theorem sortQ_perm (l : List ℚ) : (sortQ l).Perm l :=
  List.perm_insertionSort _ l

/-- The front of the sorted vector bounds every element from below. -/
theorem sortQ_headD_le (l : List ℚ) (x : ℚ) (hx : x ∈ l) :
    (sortQ l).headD 0 ≤ x := by
  have hx' : x ∈ sortQ l := (sortQ_perm l).mem_iff.mpr hx
  have hs := sortQ_sorted l
  rcases h : sortQ l with _ | ⟨h0, t⟩
  · rw [h] at hx'; cases hx'
  · rw [h] at hx' hs
    rw [List.sorted_cons] at hs
    rcases List.mem_cons.mp hx' with he | hm
    · simp [he]
    · simpa using hs.1 x hm

/-- The argmax fold never decreases the tracked value. -/
theorem foldlMax_ge (v : ℕ → ℚ) (is : List ℕ) (b : ℕ) :
    v b ≤ v (is.foldl (fun ibest i => if v ibest < v i then i else ibest) b) := by
  induction is generalizing b with
  | nil => exact le_refl _
  | cons h t ih =>
    rw [List.foldl_cons]
    refine le_trans ?_ (ih _)
    by_cases hc : v b < v h
    · rw [if_pos hc]; exact le_of_lt hc
    · rw [if_neg hc]

/-- The argmax fold lands on its start index or inside the processed list. -/
theorem foldlMax_mem (v : ℕ → ℚ) (is : List ℕ) (b : ℕ) :
    is.foldl (fun ibest i => if v ibest < v i then i else ibest) b = b ∨
      is.foldl (fun ibest i => if v ibest < v i then i else ibest) b ∈ is := by
  induction is generalizing b with
  | nil => exact Or.inl rfl
  | cons h t ih =>
    rw [List.foldl_cons]
    rcases ih (if v b < v h then h else b) with he | hm
    · rw [he]
      by_cases hc : v b < v h
      · rw [if_pos hc]; exact Or.inr (List.mem_cons_self _ _)
      · rw [if_neg hc]; exact Or.inl rfl
    · exact Or.inr (List.mem_cons_of_mem _ hm)

/-- No processed index strictly beats the argmax fold's result. -/
theorem foldlMax_not_lt (v : ℕ → ℚ) (is : List ℕ) (b : ℕ) :
    ∀ j ∈ is, ¬ v (is.foldl (fun ibest i => if v ibest < v i then i else ibest) b) < v j := by
  induction is generalizing b with
  | nil => intro j hj; cases hj
  | cons h t ih =>
    intro j hj
    rw [List.foldl_cons]
    rcases List.mem_cons.mp hj with he | hm
    · subst he
      have h1 : v j ≤ v (if v b < v j then j else b) := by
        by_cases hc : v b < v j
        · rw [if_pos hc]
        · rw [if_neg hc]; exact le_of_not_lt hc
      exact not_lt.mpr (le_trans h1 (foldlMax_ge v t _))
    · exact ih _ j hm

/-- `scores` yields one score per candidate. -/
theorem scores_length (cs : List BridgeDirection) : (scores cs).length = cs.length := by
  simp [scores]

/-- `selectBest` is a valid index of a non-empty score list. -/
theorem selectBest_lt_length (covs : List ℚ) (h : covs ≠ []) :
    selectBest covs < covs.length := by
  unfold selectBest
  rcases foldlMax_mem (fun i => covs.getD i 0) (List.range covs.length) 0 with he | hm
  · rw [he]
    exact List.length_pos.mpr h
  · exact List.mem_range.mp hm

/-- No index carries a strictly larger score than `selectBest`'s choice. -/
theorem selectBest_max (covs : List ℚ) :
    ∀ j < covs.length, ¬ covs.getD (selectBest covs) 0 < covs.getD j 0 := by
  intro j hj
  exact foldlMax_not_lt (fun i => covs.getD i 0) (List.range covs.length) 0 j
    (List.mem_range.mpr hj)

/-- Claim C3, amended.  A candidate with `total_length_anchored == 0` is
skipped only for the median computation and the `have_coverage` flag: its
fields still enter the global extremes (the sorted-vector minima bound every
candidate's `median_length_anchor` and `max_length_anchored`, zero-anchored
ones included) and the arg-max selection considers every candidate, so such
a candidate can be chosen as best. -/
theorem claim_C3 (cs : List BridgeDirection) (hne : cs ≠ []) :
    (∀ c ∈ cs,
        (sortQ (cs.map (·.median_length_anchor))).headD 0 ≤ c.median_length_anchor ∧
        (sortQ (cs.map (·.max_length_anchored))).headD 0 ≤ c.max_length_anchored) ∧
    selectBest (scores cs) < cs.length ∧
    (∀ j < cs.length,
        ¬ (scores cs).getD (selectBest (scores cs)) 0 < (scores cs).getD j 0) ∧
    (∀ (c : BridgeDirection) (dist : List ℚ), c.total_length_anchored = 0 →
        postSweep (c, dist) = (c, false)) := by
  refine ⟨?_, ?_, ?_, ?_⟩
  · intro c hc
    exact ⟨sortQ_headD_le _ _ (List.mem_map_of_mem _ hc),
      sortQ_headD_le _ _ (List.mem_map_of_mem _ hc)⟩
  · have := selectBest_lt_length (scores cs) (by
      intro h
      exact hne (List.eq_nil_of_length_eq_zero (by rw [← scores_length cs, h]; rfl)))
    rwa [scores_length] at this
  · intro j hj
    exact selectBest_max (scores cs) j (by rwa [scores_length])
  · intro c dist h
    simp [postSweep, h]

/-- Witness for C3 at a concrete input. -/
theorem claim_C3_witness :
    (∀ c ∈ [mkBD 1],
        (sortQ ([mkBD 1].map (·.median_length_anchor))).headD 0 ≤ c.median_length_anchor ∧
        (sortQ ([mkBD 1].map (·.max_length_anchored))).headD 0 ≤ c.max_length_anchored) ∧
    selectBest (scores [mkBD 1]) < 1 ∧
    (∀ j < ([mkBD 1] : List BridgeDirection).length,
        ¬ (scores [mkBD 1]).getD (selectBest (scores [mkBD 1])) 0
          < (scores [mkBD 1]).getD j 0) ∧
    (∀ (c : BridgeDirection) (dist : List ℚ), c.total_length_anchored = 0 →
        postSweep (c, dist) = (c, false)) :=
  claim_C3 [mkBD 1] (by simp)

/-- Accumulating a classified segment never changes the candidate's angle. -/
theorem accumLine_angle (good : Bool) (len : ℚ) (p : BridgeDirection × List ℚ) :
    (accumLine good len p).1.angle = p.1.angle := by
  rcases p with ⟨c, dist⟩
  unfold accumLine
  by_cases h : good = true <;> simp [h]

/-- A whole accumulation fold never changes the candidate's angle. -/
theorem accumFold_angle (g : ClippedLine → Bool) (cl : List ClippedLine)
    (p : BridgeDirection × List ℚ) :
    (cl.foldl (fun acc L => accumLine (g L) L.len acc) p).1.angle = p.1.angle := by
  induction cl generalizing p with
  | nil => rfl
  | cons h t ih =>
    rw [List.foldl_cons]
    rw [ih (accumLine (g h) h.len p)]
    exact accumLine_angle _ _ _

/-- The post-sweep median step never changes the candidate's angle. -/
theorem postSweep_angle (p : BridgeDirection × List ℚ) :
    (postSweep p).1.angle = p.1.angle := by
  rcases p with ⟨c, dist⟩
  unfold postSweep
  by_cases h1 : c.total_length_anchored = 0 ∨ c.nb_lines_anchored = 0
  · simp [h1]
  · by_cases h2 : dist.isEmpty <;> simp [h1, h2]

/-- The primary sweep never changes the candidate's angle. -/
theorem sweepPrimary_angle (anchors : List Anchor) (spacing : ℚ)
    (clipped : List ClippedLine) (c : BridgeDirection) :
    (sweepPrimary anchors spacing clipped c).1.angle = c.angle := by
  unfold sweepPrimary
  rw [postSweep_angle]
  exact accumFold_angle _ _ _

/-- The fallback sweep never changes the candidate's angle. -/
theorem sweepFallback_angle (anchors : List Anchor) (clipped : List ClippedLine)
    (c : BridgeDirection) :
    (sweepFallback anchors clipped c).1.angle = c.angle := by
  unfold sweepFallback
  rw [postSweep_angle]
  exact accumFold_angle _ _ _

/-- Iterating a pass keeps the multiset of candidate angles: each output
candidate is the sweep of some input candidate. -/
theorem runPass_mem (sweep : BridgeDirection → BridgeDirection × Bool)
    (cands : List BridgeDirection) (c' : BridgeDirection)
    (h : c' ∈ (runPass sweep cands).1) : ∃ c ∈ cands, c' = (sweep c).1 := by
  unfold runPass at h
  simp only [List.map_map, List.mem_map, Function.comp] at h
  obtain ⟨c, hc, he⟩ := h
  exact ⟨c, hc, he.symm⟩

/-- A pass that reports coverage ran on a non-empty candidate list and hence
yields one. -/
theorem runPass_nonempty (sweep : BridgeDirection → BridgeDirection × Bool)
    (cands : List BridgeDirection) (h : (runPass sweep cands).2 = true) :
    (runPass sweep cands).1 ≠ [] := by
  unfold runPass at *
  simp only [List.any_eq_true, List.mem_map] at h
  obtain ⟨_, ⟨c, hc, _⟩, _⟩ := h
  simp only [ne_eq, List.map_eq_nil_iff]
  intro he
  rw [he] at hc
  cases hc

/-- Every candidate angle at scoring time is an enumerated angle or the
override. -/
theorem detectCands_angle (inp : DAInput) (ov : ℚ) (c : BridgeDirection)
    (hc : c ∈ detectCands inp ov) :
    (∃ b ∈ inp.enum false, c.angle = b.angle) ∨
      (∃ b ∈ inp.enum true, c.angle = b.angle) ∨ c.angle = ov := by
  have hprim : ∀ c' ∈ runPass
      (fun c => sweepPrimary inp.anchors inp.spacing (inp.clip1 c.angle) c)
      (primaryCands inp ov) |>.1,
      (∃ b ∈ inp.enum false, c'.angle = b.angle) ∨ c'.angle = ov := by
    intro c' h'
    obtain ⟨c0, h0, he⟩ := runPass_mem _ _ _ h'
    rw [he, sweepPrimary_angle]
    unfold primaryCands at h0
    by_cases hov : ov = 0
    · rw [if_pos hov] at h0
      obtain ⟨b, hb, hbe⟩ := List.mem_map.mp h0
      exact Or.inl ⟨b, hb, by rw [← hbe]; rfl⟩
    · rw [if_neg hov] at h0
      rcases List.mem_cons.mp h0 with he0 | he0
      · exact Or.inr (by rw [he0]; rfl)
      · cases he0
  unfold detectCands detectCandsHave at hc
  by_cases hp : (runPass
      (fun c => sweepPrimary inp.anchors inp.spacing (inp.clip1 c.angle) c)
      (primaryCands inp ov)).2 = true
  · rw [if_pos hp] at hc
    rcases hprim c hc with h | h
    · exact Or.inl h
    · exact Or.inr (Or.inr h)
  · rw [if_neg hp] at hc
    obtain ⟨c0, h0, he⟩ := runPass_mem _ _ _ hc
    rw [he, sweepFallback_angle]
    by_cases hov : ov = 0
    · rw [if_pos hov] at h0
      obtain ⟨b, hb, hbe⟩ := List.mem_map.mp h0
      exact Or.inr (Or.inl ⟨b, hb, by rw [← hbe]; rfl⟩)
    · rw [if_neg hov] at h0
      rcases List.mem_append.mp h0 with h0 | h0
      · rcases hprim c0 h0 with h | h
        · exact Or.inl (by simpa using h)
        · exact Or.inr (Or.inr h)
      · rcases List.mem_cons.mp h0 with he0 | he0
        · exact Or.inr (Or.inr (by rw [he0]; rfl))
        · cases he0

/-- If `detect_angle` is about to score, the candidate list is non-empty. -/
theorem detectCandsHave_nonempty (inp : DAInput) (ov : ℚ)
    (h : (detectCandsHave inp ov).2 = true) : (detectCandsHave inp ov).1 ≠ [] := by
  unfold detectCandsHave at *
  by_cases hp : (runPass
      (fun c => sweepPrimary inp.anchors inp.spacing (inp.clip1 c.angle) c)
      (primaryCands inp ov)).2 = true
  · rw [if_pos hp] at h ⊢
    exact runPass_nonempty _ _ h
  · rw [if_neg hp] at h ⊢
    exact runPass_nonempty _ _ h

/-- Normalization sends `[0, 2π)` into `[0, π)`. -/
theorem normQ_mem (x : ℚ) (h0 : 0 ≤ x) (h2 : x < 2 * piD) :
    0 ≤ normQ x ∧ normQ x < piD := by
  unfold normQ
  by_cases h : piD ≤ x
  · rw [if_pos h]
    constructor <;> linarith
  · rw [if_neg h]
    exact ⟨h0, lt_of_not_le h⟩

/-- `getD` at a valid index is a member. -/
theorem getD_mem_of_lt {α : Type} (l : List α) (n : ℕ) (d : α) (h : n < l.length) :
    l.getD n d ∈ l := by
  rw [List.getD_eq_getElem l d h]
  exact List.getElem_mem h

/-- Claim C4, amended.  The stored angle lies in `[0, π)` whenever every
candidate angle lies in `[0, 2π)` — which is the case for the enumerated
candidates, but must be assumed for a non-zero override, since the final
normalization subtracts π at most once: a negative override or one `≥ 2π`
is stored outside `[0, π)`. -/
theorem claim_C4 (inp : DAInput) (ov : ℚ)
    (h0 : ∀ b ∈ inp.enum false, 0 ≤ b.angle ∧ b.angle < 2 * piD)
    (h1 : ∀ b ∈ inp.enum true, 0 ≤ b.angle ∧ b.angle < 2 * piD)
    (hov : ov = 0 ∨ (0 ≤ ov ∧ ov < 2 * piD)) :
    ∀ a, detect_angle inp ov = some a → 0 ≤ a ∧ a < piD := by
  intro a ha
  unfold detect_angle at ha
  by_cases hemp : (inp.edgesEmpty || inp.anchors.isEmpty) = true
  · rw [if_pos hemp] at ha; cases ha
  · rw [if_neg hemp] at ha
    by_cases hhave : (detectCandsHave inp ov).2 = true
    · rw [if_pos hhave] at ha
      have hne : (detectCandsHave inp ov).1 ≠ [] := detectCandsHave_nonempty inp ov hhave
      have hlt : selectBest (scores (detectCandsHave inp ov).1)
          < (detectCandsHave inp ov).1.length := by
        have := selectBest_lt_length (scores (detectCandsHave inp ov).1) (by
          intro h
          exact hne (List.eq_nil_of_length_eq_zero
            (by rw [← scores_length (detectCandsHave inp ov).1, h]; rfl)))
        rwa [scores_length] at this
      have hmem : (detectCandsHave inp ov).1.getD
          (selectBest (scores (detectCandsHave inp ov).1)) default
          ∈ (detectCandsHave inp ov).1 := getD_mem_of_lt _ _ _ hlt
      have hang := detectCands_angle inp ov _ hmem
      have hb : 0 ≤ ((detectCandsHave inp ov).1.getD
            (selectBest (scores (detectCandsHave inp ov).1)) default).angle ∧
          ((detectCandsHave inp ov).1.getD
            (selectBest (scores (detectCandsHave inp ov).1)) default).angle < 2 * piD := by
        rcases hang with ⟨b, hbm, hbe⟩ | ⟨b, hbm, hbe⟩ | hbe
        · rw [hbe]; exact h0 b hbm
        · rw [hbe]; exact h1 b hbm
        · rcases hov with h | h
          · rw [hbe, h]
            have : (0:ℚ) < piD := by norm_num [piD]
            constructor <;> linarith
          · rw [hbe]; exact h
      have := normQ_mem _ hb.1 hb.2
      rw [Option.some_inj] at ha
      rw [← ha]
      exact this
    · rw [if_neg hhave] at ha; cases ha

/-- Witness for C4 at a concrete input: the run over `inpC4` with override 1
returns `some 1`, and the theorem places the stored angle in `[0, π)`. -/
theorem claim_C4_witness : 0 ≤ (1:ℚ) ∧ (1:ℚ) < piD :=
  claim_C4 inpC4 1 (by simp [inpC4]) (by simp [inpC4])
    (Or.inr ⟨by norm_num, by norm_num [piD]⟩) 1
    (by norm_num [detect_angle, detectCands, detectCandsHave, runPass, primaryCands, mkBD,
      ofBD0, sweepPrimary, sweepFallback, postSweep, accumLine, classifyPrimary,
      classifyFallback, anchorScan, probeStage1, probeStage2, anchorHas, pmid,
      sentinelIdx, sortQ, scores, selectBest, normQ, inpC4, anchorHole,
      List.insertionSort, List.orderedInsert, piD, Int.tdiv,
      List.range_succ, List.foldl_append, List.getD,
      Prod.ext_iff, Prod.fst_zero, Prod.snd_zero, -Prod.mk_zero_zero])

/-- Claim C5, amended.  With a non-zero override, the primary pass runs on
exactly `[BridgeDirection(override)]`; if the fallback pass is reached, a
second `BridgeDirection(override)` is appended to the already-swept list (so
that list has two candidates, the first carrying statistics from both
sweeps), but every candidate still has the override angle, and a successful
run stores the normalized override. -/
theorem claim_C5 (inp : DAInput) (ov : ℚ) (hov : ov ≠ 0) :
    primaryCands inp ov = [mkBD ov] ∧
    (∀ c ∈ detectCands inp ov, c.angle = ov) ∧
    (∀ a, detect_angle inp ov = some a → a = normQ ov) := by
  have hpc : primaryCands inp ov = [mkBD ov] := by
    unfold primaryCands; rw [if_neg hov]
  have hp1 : ∀ c' ∈ runPass
      (fun c => sweepPrimary inp.anchors inp.spacing (inp.clip1 c.angle) c)
      (primaryCands inp ov) |>.1, c'.angle = ov := by
    intro c' h'
    obtain ⟨c0, h0, he⟩ := runPass_mem _ _ _ h'
    rw [hpc] at h0
    rcases List.mem_cons.mp h0 with he0 | he0
    · rw [he, he0, sweepPrimary_angle]; rfl
    · cases he0
  have hang : ∀ c ∈ detectCands inp ov, c.angle = ov := by
    intro c hc
    unfold detectCands detectCandsHave at hc
    by_cases hp : (runPass
        (fun c => sweepPrimary inp.anchors inp.spacing (inp.clip1 c.angle) c)
        (primaryCands inp ov)).2 = true
    · rw [if_pos hp] at hc
      exact hp1 c hc
    · rw [if_neg hp] at hc
      obtain ⟨c0, h0, he⟩ := runPass_mem _ _ _ hc
      rw [if_neg hov] at h0
      rw [he, sweepFallback_angle]
      rcases List.mem_append.mp h0 with h0 | h0
      · exact hp1 c0 h0
      · rcases List.mem_cons.mp h0 with he0 | he0
        · rw [he0]; rfl
        · cases he0
  refine ⟨hpc, hang, ?_⟩
  intro a ha
  unfold detect_angle at ha
  by_cases hemp : (inp.edgesEmpty || inp.anchors.isEmpty) = true
  · rw [if_pos hemp] at ha; cases ha
  · rw [if_neg hemp] at ha
    by_cases hhave : (detectCandsHave inp ov).2 = true
    · rw [if_pos hhave] at ha
      have hne : (detectCandsHave inp ov).1 ≠ [] := detectCandsHave_nonempty inp ov hhave
      have hlt : selectBest (scores (detectCandsHave inp ov).1)
          < (detectCandsHave inp ov).1.length := by
        have := selectBest_lt_length (scores (detectCandsHave inp ov).1) (by
          intro h
          exact hne (List.eq_nil_of_length_eq_zero
            (by rw [← scores_length (detectCandsHave inp ov).1, h]; rfl)))
        rwa [scores_length] at this
      have hmem : (detectCandsHave inp ov).1.getD
          (selectBest (scores (detectCandsHave inp ov).1)) default
          ∈ (detectCandsHave inp ov).1 := getD_mem_of_lt _ _ _ hlt
      rw [Option.some_inj] at ha
      rw [← ha, hang _ hmem]
    · rw [if_neg hhave] at ha; cases ha

/-- Witness for C5 at a concrete input: the override-1 run over `inpC5`
returns `some 1`, which indeed equals the normalized override. -/
theorem claim_C5_witness : (1:ℚ) = normQ 1 :=
  (claim_C5 inpC5 1 (by norm_num)).2.2 1
    (by norm_num [detect_angle, detectCands, detectCandsHave, runPass, primaryCands, mkBD,
      ofBD0, sweepPrimary, sweepFallback, postSweep, accumLine, classifyPrimary,
      classifyFallback, anchorScan, probeStage1, probeStage2, anchorHas, pmid,
      sentinelIdx, sortQ, scores, selectBest, normQ, inpC5, anchorAll,
      List.insertionSort, List.orderedInsert, piD,
      List.range_succ, List.foldl_append, List.getD, Prod.mk.injEq])

/-- Claim C6, amended.  When `_edges` or `_anchor_regions` is empty,
`detect_angle` returns false for every override without sweeping; the
*default / sentinel-angle* queries then return empty results (no angle was
stored), and `coverage` is empty whenever the anchor regions are empty
(every trapezoid has zero supports); but an explicit-angle query of
`unsupported_edges` or `coverage` is not forced to be empty by `_edges`
alone. -/
theorem claim_C6 :
    (∀ (inp : DAInput) (ov : ℚ), inp.edgesEmpty = true ∨ inp.anchors = [] →
        detect_angle inp ov = none) ∧
    (∀ (udata : List (List LineSeg)) (dirOf : LineSeg → ℚ) (acc : List PolylineM),
        unsupportedEdgesInto (-1) udata dirOf (-1) acc = acc) ∧
    (∀ (trapsOf : ℚ → List (PolygonM × ℕ)) (uni : List PolygonM → List PolygonM)
        (rotBack : ℚ → List PolygonM → List PolygonM),
        coverageM (-1) trapsOf uni rotBack (-1) = []) ∧
    (∀ (trapsOf : ℚ → List (PolygonM × ℕ)) (uni : List PolygonM → List PolygonM)
        (rotBack : ℚ → List PolygonM → List PolygonM) (angle : ℚ),
        (∀ θ, ∀ t ∈ trapsOf θ, t.2 = 0) → uni [] = [] → (∀ θ, rotBack θ [] = []) →
        coverageM (-1) trapsOf uni rotBack angle = []) := by
  refine ⟨?_, ?_, ?_, ?_⟩
  · intro inp ov h
    unfold detect_angle
    rcases h with h | h
    · rw [if_pos (by simp [h])]
    · rw [if_pos (by simp [h])]
  · intro udata dirOf acc
    unfold unsupportedEdgesInto
    simp
  · intro trapsOf uni rotBack
    unfold coverageM
    simp
  · intro trapsOf uni rotBack angle hz hu hr
    unfold coverageM
    by_cases h : angle = -1
    · simp [h]
    · rw [if_neg h]
      simp only [h, if_false]
      have he : ((trapsOf angle).filterMap
          fun t => if 2 ≤ t.2 then some t.1 else none) = [] := by
        rw [List.filterMap_eq_nil_iff]
        intro t ht
        rw [hz angle t ht]
        norm_num
      rw [he, hu, hr]

/-- Witness for C6 at a concrete input: empty `_edges` forces a false return
for the (arbitrary) override 5. -/
theorem claim_C6_witness : detect_angle inpC6 5 = none :=
  claim_C6.1 inpC6 5 (Or.inl rfl)

/-- Claim C9: for an actual (non-sentinel) angle, every polyline
`unsupported_edges` returns has exactly two points, its direction is not
parallel to the queried angle, and filtering the result by parallelism with
that angle leaves nothing. -/
theorem claim_C9 (storedAngle : ℚ) (udata : List (List LineSeg))
    (dirOf : LineSeg → ℚ) (angle : ℚ) (h : angle ≠ -1) :
    (∀ pl ∈ unsupportedEdgesVal storedAngle udata dirOf angle,
        ∃ p q : Pt, pl = [p, q] ∧ dirsParallel (dirOf ⟨p, q⟩) angle 0 = false) ∧
    (unsupportedEdgesVal storedAngle udata dirOf angle).filter
        (fun pl => dirsParallel (dirOf ⟨pl.getD 0 (0,0), pl.getD 1 (0,0)⟩) angle 0) = [] := by
  have hshape : ∀ pl ∈ unsupportedEdgesVal storedAngle udata dirOf angle,
      ∃ p q : Pt, pl = [p, q] ∧ dirsParallel (dirOf ⟨p, q⟩) angle 0 = false := by
    intro pl hpl
    unfold unsupportedEdgesVal unsupportedEdgesInto at hpl
    rw [if_neg h] at hpl
    rw [if_neg h] at hpl
    simp only [List.nil_append, List.mem_flatten, List.mem_map] at hpl
    obtain ⟨part, ⟨segs, _, hpart⟩, hmem⟩ := hpl
    rw [← hpart] at hmem
    unfold unsupportedFilter at hmem
    obtain ⟨l, _, hl⟩ := List.mem_filterMap.mp hmem
    by_cases hp : dirsParallel (dirOf l) angle 0 = true
    · rw [if_pos hp] at hl; cases hl
    · rw [if_neg hp] at hl
      refine ⟨l.a, l.b, (Option.some_inj.mp hl).symm, ?_⟩
      have : (⟨l.a, l.b⟩ : LineSeg) = l := rfl
      rw [this]
      exact Bool.not_eq_true _ ▸ Bool.of_not_eq_true hp
  refine ⟨hshape, ?_⟩
  rw [List.filter_eq_nil_iff]
  intro pl hpl
  obtain ⟨p, q, hpq, hpar⟩ := hshape pl hpl
  rw [hpq]
  simp only [List.getD_cons_zero, List.getD_cons_succ]
  simp [hpar]

/-- Witness for C9 at a concrete input. -/
theorem claim_C9_witness :
    (∀ pl ∈ unsupportedEdgesVal (-1) [[⟨(0,0), (7,0)⟩]] (fun _ => 0) 2,
        ∃ p q : Pt, pl = [p, q] ∧ dirsParallel ((fun _ => (0:ℚ)) (⟨p, q⟩ : LineSeg)) 2 0 = false) ∧
    (unsupportedEdgesVal (-1) [[⟨(0,0), (7,0)⟩]] (fun _ => 0) 2).filter
        (fun pl => dirsParallel ((fun _ => (0:ℚ))
          (⟨pl.getD 0 (0,0), pl.getD 1 (0,0)⟩ : LineSeg)) 2 0) = [] :=
  claim_C9 (-1) [[⟨(0,0), (7,0)⟩]] (fun _ => 0) 2 (by norm_num)

/-- The modelled `PI` is positive. -/
theorem piD_pos : (0:ℚ) < piD := by norm_num [piD]

/-- `qmod` is non-negative for a positive modulus. -/
theorem qmod_nonneg (x m : ℚ) (hm : 0 < m) : 0 ≤ qmod x m :=
  mul_nonneg (le_of_lt hm) (Int.fract_nonneg _)

/-- `qmod` stays below a positive modulus. -/
theorem qmod_lt (x m : ℚ) (hm : 0 < m) : qmod x m < m := by
  have := Int.fract_lt_one (x / m)
  calc qmod x m = m * Int.fract (x / m) := rfl
    _ < m * 1 := by
        exact mul_lt_mul_of_pos_left this hm
    _ = m := mul_one m

/-- `qmod` is the identity inside `[0, m)`. -/
theorem qmod_eq_self (x m : ℚ) (h0 : 0 ≤ x) (hm : x < m) : qmod x m = x := by
  have hmpos : 0 < m := lt_of_le_of_lt h0 hm
  have h1 : Int.fract (x / m) = x / m := by
    rw [Int.fract_eq_self]
    constructor
    · exact div_nonneg h0 (le_of_lt hmpos)
    · rw [div_lt_one hmpos]; exact hm
  unfold qmod
  rw [h1, mul_div_cancel₀ _ (ne_of_gt hmpos)]

/-- `qmod m m = 0`. -/
theorem qmod_self (m : ℚ) (hm : 0 < m) : qmod m m = 0 := by
  unfold qmod
  rw [div_self (ne_of_gt hm)]
  simp [Int.fract_intCast (α := ℚ) 1]

/-- For angles `a ≤ b` within one half-turn and a gap below `piD`,
parallelism at `tol` is exactly `b - a ≤ tol`. -/
theorem dirsParallel_eq_gap (a b tol : ℚ) (hab : a ≤ b) (hlt : b - a < piD) :
    dirsParallel a b tol = decide (b - a ≤ tol) := by
  unfold dirsParallel
  rw [abs_sub_comm, abs_of_nonneg (by linarith), qmod_eq_self _ _ (by linarith) hlt]

/-- Angles exactly a half-turn apart are parallel at every non-negative
tolerance. -/
theorem dirsParallel_pi (a b tol : ℚ) (htol : 0 ≤ tol) (hpi : b - a = piD) :
    dirsParallel a b tol = true := by
  unfold dirsParallel
  rw [abs_sub_comm, hpi, abs_of_nonneg (le_of_lt piD_pos), qmod_self _ piD_pos]
  simpa using htol

/-- `dirsParallel` is symmetric in its two angles. -/
theorem dirsParallel_comm (a b tol : ℚ) : dirsParallel a b tol = dirsParallel b a tol := by
  unfold dirsParallel
  rw [abs_sub_comm]

/-- A failed parallel test between ordered in-range angles leaves a gap
above the tolerance and strictly below `piD`. -/
theorem gap_of_not_parallel (a b tol : ℚ) (htol : 0 ≤ tol) (hab : a ≤ b)
    (hle : b - a ≤ piD) (h : dirsParallel a b tol = false) :
    tol < b - a ∧ b - a < piD := by
  rcases lt_or_eq_of_le hle with hlt | hpi
  · refine ⟨?_, hlt⟩
    rw [dirsParallel_eq_gap a b tol hab hlt] at h
    have := of_decide_eq_false h
    linarith [not_le.mp this]
  · rw [dirsParallel_pi a b tol htol hpi] at h
    cases h

/-- Every pair of angles is parallel once the tolerance reaches `piD`. -/
theorem dirsParallel_of_big (a b tol : ℚ) (h : piD ≤ tol) :
    dirsParallel a b tol = true := by
  unfold dirsParallel
  rw [decide_eq_true_eq]
  exact le_trans (le_of_lt (qmod_lt _ _ piD_pos)) h

/-- Pass B returns a sublist of `prev :: rest`. -/
theorem passB_sublist (tol : ℚ) : ∀ (rest : List BD0) (prev : BD0),
    (passB tol prev rest).Sublist (prev :: rest) := by
  intro rest
  induction rest with
  | nil => intro prev; exact List.Sublist.refl _
  | cons h t ih =>
    intro prev
    unfold passB
    by_cases hp : dirsParallel h.angle prev.angle tol = true
    · rw [if_pos hp]
      by_cases ha : h.along < prev.along
      · rw [if_pos ha]
        exact List.Sublist.trans (ih prev) (List.Sublist.cons₂ prev (List.sublist_cons_self h t))
      · rw [if_neg ha]
        exact List.Sublist.trans (ih h) (List.sublist_cons_self prev (h :: t))
    · rw [if_neg hp]
      exact List.Sublist.cons₂ prev (ih h)

/-- Pass B never returns the empty list. -/
theorem passB_ne_nil (tol : ℚ) : ∀ (rest : List BD0) (prev : BD0),
    passB tol prev rest ≠ [] := by
  intro rest
  induction rest with
  | nil => intro prev h; cases h
  | cons h t ih =>
    intro prev
    unfold passB
    by_cases hp : dirsParallel h.angle prev.angle tol = true
    · rw [if_pos hp]
      by_cases ha : h.along < prev.along
      · rw [if_pos ha]; exact ih prev
      · rw [if_neg ha]; exact ih h
    · rw [if_neg hp]
      intro he; cases he

/-- Pass A returns a sublist of `prev :: rest`. -/
theorem passA_sublist (tol : ℚ) : ∀ (rest : List BD0) (prev : BD0),
    (passA tol prev rest).Sublist (prev :: rest) := by
  intro rest
  induction rest with
  | nil => intro prev; exact List.Sublist.refl _
  | cons h t ih =>
    intro prev
    unfold passA
    by_cases h1 : 0 < prev.along ∧ h.along = 0 ∧ dirsParallel h.angle prev.angle tol = true
    · rw [if_pos h1]
      exact List.Sublist.trans (ih prev) (List.Sublist.cons₂ prev (List.sublist_cons_self h t))
    · rw [if_neg h1]
      by_cases h2 : 0 < h.along ∧ prev.along = 0 ∧ dirsParallel h.angle prev.angle tol = true
      · rw [if_pos h2]
        exact List.Sublist.trans (ih h) (List.sublist_cons_self prev (h :: t))
      · rw [if_neg h2]
        exact List.Sublist.cons₂ prev (ih h)

/-- Pass A over a whole list returns a sublist. -/
theorem passArun_sublist (tol : ℚ) (l : List BD0) : (passArun tol l).Sublist l := by
  cases l with
  | nil => exact List.Sublist.refl _
  | cons h t => exact passA_sublist tol t h

/-- Pass B over a whole list returns a sublist. -/
theorem passBrun_sublist (tol : ℚ) (l : List BD0) : (passBrun tol l).Sublist l := by
  cases l with
  | nil => exact List.Sublist.refl _
  | cons h t => exact passB_sublist tol t h

/-- The head of a pass-B result is one of the inputs. -/
theorem passB_head_mem (tol : ℚ) (rest : List BD0) (prev y : BD0)
    (hy : y ∈ (passB tol prev rest).head?) : y ∈ prev :: rest := by
  have hmem : y ∈ passB tol prev rest := List.mem_of_mem_head? hy
  exact (passB_sublist tol rest prev).subset hmem

/-- The key pass-B invariant: on a sorted in-range input, every two adjacent
survivors are separated by more than the tolerance (and by at most a
half-turn). -/
theorem passB_chain (tol : ℚ) (htol : 0 ≤ tol) :
    ∀ (rest : List BD0) (prev : BD0),
    List.Sorted (fun u v : BD0 => u.angle ≤ v.angle) (prev :: rest) →
    (∀ b ∈ prev :: rest, 0 ≤ b.angle ∧ b.angle ≤ piD) →
    List.Chain' (gapR tol) (passB tol prev rest) := by
  intro rest
  induction rest with
  | nil =>
    intro prev _ _
    exact List.chain'_singleton prev
  | cons h t ih =>
    intro prev hsort hrange
    have hsorted_t : List.Sorted (fun u v : BD0 => u.angle ≤ v.angle) (h :: t) :=
      (List.sorted_cons.mp hsort).2
    have hprevle : prev.angle ≤ h.angle :=
      (List.sorted_cons.mp hsort).1 h (List.mem_cons_self h t)
    have hrange_t : ∀ b ∈ h :: t, 0 ≤ b.angle ∧ b.angle ≤ piD := fun b hb =>
      hrange b (List.mem_cons_of_mem prev hb)
    have hsorted_pt : List.Sorted (fun u v : BD0 => u.angle ≤ v.angle) (prev :: t) := by
      have hsub : (prev :: t).Sublist (prev :: h :: t) :=
        List.Sublist.cons₂ prev (List.sublist_cons_self h t)
      exact List.Pairwise.sublist hsub hsort
    have hrange_pt : ∀ b ∈ prev :: t, 0 ≤ b.angle ∧ b.angle ≤ piD := by
      intro b hb
      rcases List.mem_cons.mp hb with he | hm
      · exact hrange b (he ▸ List.mem_cons_self prev (h :: t))
      · exact hrange b (List.mem_cons_of_mem prev (List.mem_cons_of_mem h hm))
    unfold passB
    by_cases hp : dirsParallel h.angle prev.angle tol = true
    · rw [if_pos hp]
      by_cases ha : h.along < prev.along
      · rw [if_pos ha]
        exact ih prev hsorted_pt hrange_pt
      · rw [if_neg ha]
        exact ih h hsorted_t hrange_t
    · rw [if_neg hp]
      have hch := ih h hsorted_t hrange_t
      rw [List.chain'_cons']
      refine ⟨?_, hch⟩
      intro y hy
      have hymem : y ∈ h :: t := passB_head_mem tol t h y hy
      have hhy : h.angle ≤ y.angle := by
        rcases List.mem_cons.mp hymem with he | hm
        · rw [he]
        · exact (List.sorted_cons.mp hsorted_t).1 y hm
      have hgap := gap_of_not_parallel prev.angle h.angle tol htol hprevle
        (by
          have h1 := (hrange h (List.mem_cons_of_mem prev (List.mem_cons_self h t))).2
          have h2 := (hrange prev (List.mem_cons_self prev (h :: t))).1
          linarith)
        (by rw [dirsParallel_comm]; exact Bool.eq_false_iff.mpr hp)
      constructor
      · have := hgap.1; linarith
      · have h1 := (hrange_t y hymem).2
        have h2 := (hrange prev (List.mem_cons_self prev (h :: t))).1
        linarith

/-- Pass B over a whole sorted in-range list keeps the gap invariant. -/
theorem passBrun_chain (tol : ℚ) (htol : 0 ≤ tol) (l : List BD0)
    (hsort : List.Sorted (fun u v : BD0 => u.angle ≤ v.angle) l)
    (hrange : ∀ b ∈ l, 0 ≤ b.angle ∧ b.angle ≤ piD) :
    List.Chain' (gapR tol) (passBrun tol l) := by
  cases l with
  | nil => exact List.chain'_nil
  | cons h t => exact passB_chain tol htol t h hsort hrange

/-- Unfolding equation for the fueled loop at zero fuel. -/
theorem shrinkIter_zero (tol : ℚ) (l : List BD0) : shrinkIter 0 tol l = (tol, l) := rfl

/-- Unfolding equation for the fueled loop at positive fuel. -/
theorem shrinkIter_succ (n : ℕ) (tol : ℚ) (l : List BD0) :
    shrinkIter (n + 1) tol l =
      if 200 < l.length then shrinkIter n (tol * 2) (passBrun (tol * 2) l)
      else (tol, l) := rfl

/-- The tolerance-doubling loop keeps sortedness, the angle range, and the
adjacent-gap invariant at the final tolerance, and never turns the tolerance
negative. -/
theorem shrinkIter_inv : ∀ (n : ℕ) (tol : ℚ) (l : List BD0), 0 ≤ tol →
    List.Sorted (fun u v : BD0 => u.angle ≤ v.angle) l →
    (∀ b ∈ l, 0 ≤ b.angle ∧ b.angle ≤ piD) →
    List.Chain' (gapR tol) l →
    0 ≤ (shrinkIter n tol l).1 ∧
    List.Sorted (fun u v : BD0 => u.angle ≤ v.angle) (shrinkIter n tol l).2 ∧
    (∀ b ∈ (shrinkIter n tol l).2, 0 ≤ b.angle ∧ b.angle ≤ piD) ∧
    List.Chain' (gapR (shrinkIter n tol l).1) (shrinkIter n tol l).2 := by
  intro n
  induction n with
  | zero =>
    intro tol l htol hsort hrange hchain
    exact ⟨htol, hsort, hrange, hchain⟩
  | succ n ih =>
    intro tol l htol hsort hrange hchain
    rw [shrinkIter_succ]
    by_cases hc : 200 < l.length
    · rw [if_pos hc]
      have htol2 : 0 ≤ tol * 2 := by linarith
      have hsub := passBrun_sublist (tol * 2) l
      have hsort2 := List.Pairwise.sublist hsub hsort
      have hrange2 : ∀ b ∈ passBrun (tol * 2) l, 0 ≤ b.angle ∧ b.angle ≤ piD :=
        fun b hb => hrange b (hsub.subset hb)
      exact ih (tol * 2) (passBrun (tol * 2) l) htol2 hsort2 hrange2
        (passBrun_chain (tol * 2) htol2 l hsort hrange)
    · rw [if_neg hc]
      exact ⟨htol, hsort, hrange, hchain⟩

/-- The loop result is a sublist of its input list. -/
theorem shrinkIter_sublist : ∀ (n : ℕ) (tol : ℚ) (l : List BD0),
    ((shrinkIter n tol l).2).Sublist l := by
  intro n
  induction n with
  | zero => intro tol l; exact List.Sublist.refl _
  | succ n ih =>
    intro tol l
    rw [shrinkIter_succ]
    by_cases hc : 200 < l.length
    · rw [if_pos hc]
      exact List.Sublist.trans (ih (tol * 2) (passBrun (tol * 2) l))
        (passBrun_sublist (tol * 2) l)
    · rw [if_neg hc]

/-- Once the tolerance reaches `piD`, pass B collapses any non-empty list to
a single candidate. -/
theorem passB_collapse (tol : ℚ) (hbig : piD ≤ tol) :
    ∀ (rest : List BD0) (prev : BD0), (passB tol prev rest).length = 1 := by
  intro rest
  induction rest with
  | nil => intro prev; rfl
  | cons h t ih =>
    intro prev
    unfold passB
    rw [if_pos (dirsParallel_of_big h.angle prev.angle tol hbig)]
    by_cases ha : h.along < prev.along
    · rw [if_pos ha]; exact ih prev
    · rw [if_neg ha]; exact ih h

/-- Once the tolerance reaches `piD`, a pass-B run leaves at most one
candidate. -/
theorem passBrun_collapse (tol : ℚ) (hbig : piD ≤ tol) (l : List BD0) :
    (passBrun tol l).length ≤ 1 := by
  cases l with
  | nil => exact Nat.zero_le 1
  | cons h t => exact le_of_eq (passB_collapse tol hbig t h)

/-- With enough fuel for the tolerance to reach `piD`, the loop exits with at
most 200 candidates. -/
theorem shrinkIter_le200 : ∀ (n : ℕ) (tol : ℚ) (l : List BD0), 0 < tol →
    piD ≤ tol * 2 ^ n → (shrinkIter (n + 2) tol l).2.length ≤ 200 := by
  intro n
  induction n with
  | zero =>
    intro tol l htol hbig
    rw [pow_zero, mul_one] at hbig
    show (shrinkIter (1 + 1) tol l).2.length ≤ 200
    rw [shrinkIter_succ]
    by_cases hc : 200 < l.length
    · rw [if_pos hc]
      have hcol : (passBrun (tol * 2) l).length ≤ 1 :=
        passBrun_collapse (tol * 2) (by linarith) l
      rw [shrinkIter_succ]
      rw [if_neg (by omega)]
      simpa using le_trans hcol (by norm_num)
    · rw [if_neg hc]
      simpa using le_of_not_lt hc
  | succ n ih =>
    intro tol l htol hbig
    show (shrinkIter (n + 2 + 1) tol l).2.length ≤ 200
    have he : n + 2 + 1 = (n + 2) + 1 := rfl
    rw [he, shrinkIter_succ]
    by_cases hc : 200 < l.length
    · rw [if_pos hc]
      exact ih (tol * 2) (passBrun (tol * 2) l) (by linarith)
        (by rw [pow_succ] at hbig; linarith [hbig])
    · rw [if_neg hc]
      simpa using le_of_not_lt hc

/-- Extra fuel does not change the loop result once the exit condition has
been reached. -/
theorem shrinkIter_stable : ∀ (n : ℕ) (tol : ℚ) (l : List BD0),
    (shrinkIter n tol l).2.length ≤ 200 →
    shrinkIter (n + 1) tol l = shrinkIter n tol l := by
  intro n
  induction n with
  | zero =>
    intro tol l h
    rw [shrinkIter_zero] at h
    rw [shrinkIter_succ, if_neg (not_lt.mpr h), shrinkIter_zero]
  | succ n ih =>
    intro tol l h
    by_cases hc : 200 < l.length
    · have h1 : shrinkIter (n + 1) tol l
          = shrinkIter n (tol * 2) (passBrun (tol * 2) l) := by
        rw [shrinkIter_succ, if_pos hc]
      have h2 : shrinkIter (n + 1 + 1) tol l
          = shrinkIter (n + 1) (tol * 2) (passBrun (tol * 2) l) := by
        rw [shrinkIter_succ, if_pos hc]
      rw [h2, h1]
      exact ih (tol * 2) (passBrun (tol * 2) l) (by rw [h1] at h; exact h)
    · have h1 : shrinkIter (n + 1) tol l = (tol, l) := by
        rw [shrinkIter_succ, if_neg hc]
      have h2 : shrinkIter (n + 1 + 1) tol l = (tol, l) := by
        rw [shrinkIter_succ, if_neg hc]
      rw [h1, h2]

/-- `headD` of a non-empty list is a member. -/
theorem headD_mem {α : Type} (l : List α) (d : α) (h : l ≠ []) : l.headD d ∈ l := by
  cases l with
  | nil => exact absurd rfl h
  | cons a t => exact List.mem_cons_self a t

/-- `getLastD` of a non-empty list is a member. -/
theorem getLastD_mem {α : Type} : ∀ (l : List α) (d : α), l ≠ [] → l.getLastD d ∈ l := by
  intro l
  induction l with
  | nil => intro d h; exact absurd rfl h
  | cons a t ih =>
    intro d _
    rw [List.getLastD_cons]
    by_cases ht : t = []
    · subst ht; simp [List.getLastD]
    · exact List.mem_cons_of_mem a (ih a ht)

/-- In a sorted candidate list, the front has the smallest angle. -/
theorem sorted_headD_le (l : List BD0)
    (hs : List.Sorted (fun u v : BD0 => u.angle ≤ v.angle) l) (a : BD0) (ha : a ∈ l) :
    (l.headD default).angle ≤ a.angle := by
  cases l with
  | nil => cases ha
  | cons h t =>
    rcases List.mem_cons.mp ha with he | hm
    · subst he; simp
    · exact (List.sorted_cons.mp hs).1 a hm

/-- In a sorted candidate list, the back has the largest angle. -/
theorem sorted_le_getLastD : ∀ (l : List BD0) (d : BD0),
    List.Sorted (fun u v : BD0 => u.angle ≤ v.angle) l → ∀ a ∈ l,
    a.angle ≤ (l.getLastD d).angle := by
  intro l
  induction l with
  | nil => intro d _ a ha; cases ha
  | cons h t ih =>
    intro d hs a ha
    rw [List.getLastD_cons]
    have hs' := List.sorted_cons.mp hs
    rcases List.mem_cons.mp ha with he | hm
    · subst he
      by_cases ht : t = []
      · subst ht; simp [List.getLastD]
      · have hmem := getLastD_mem t a ht
        exact hs'.1 _ hmem
    · exact ih h hs'.2 a hm

/-- The adjacent-gap invariant propagates to all pairs of the list. -/
theorem chain_gap_pairwise (tol : ℚ) (htol : 0 ≤ tol) (l : List BD0)
    (h : List.Chain' (gapR tol) l) :
    List.Pairwise (fun u v : BD0 => tol < v.angle - u.angle) l := by
  have h2 : List.Chain' (fun u v : BD0 => tol < v.angle - u.angle) l :=
    h.imp (fun a b hab => hab.1)
  letI : IsTrans BD0 (fun u v : BD0 => tol < v.angle - u.angle) :=
    ⟨fun a b c h1 h2 => by
      show tol < c.angle - a.angle
      have ha : tol < b.angle - a.angle := h1
      have hb : tol < c.angle - b.angle := h2
      linarith⟩
  exact List.chain'_iff_pairwise.mp h2

/-- After the final front/back merge, no two surviving candidates are
parallel at the final tolerance. -/
theorem step7_pairwise (tol : ℚ) (htol : 0 ≤ tol) (L : List BD0)
    (hsort : List.Sorted (fun u v : BD0 => u.angle ≤ v.angle) L)
    (hrange : ∀ b ∈ L, 0 ≤ b.angle ∧ b.angle ≤ piD)
    (hchain : List.Chain' (gapR tol) L) :
    List.Pairwise (fun u v : BD0 => dirsParallel u.angle v.angle tol = false)
      (if 1 < L.length ∧
          dirsParallel (L.headD default).angle (L.getLastD default).angle tol then
        L.dropLast
      else L) := by
  have P1 := chain_gap_pairwise tol htol L hchain
  have hpair : ∀ u v : BD0, u ∈ L → v ∈ L → tol < v.angle - u.angle →
      v.angle - u.angle < piD → dirsParallel u.angle v.angle tol = false := by
    intro u v hu hv hg hlt
    rw [dirsParallel_eq_gap u.angle v.angle tol (by linarith) hlt]
    exact decide_eq_false (not_le.mpr hg)
  by_cases hc : 1 < L.length ∧
      dirsParallel (L.headD default).angle (L.getLastD default).angle tol = true
  · rw [if_pos hc]
    have hne : L ≠ [] := by
      intro h
      rw [h] at hc
      simp at hc
    have hdecomp : L.dropLast ++ [L.getLast hne] = L := List.dropLast_append_getLast hne
    have P1s : List.Pairwise (fun u v : BD0 => tol < v.angle - u.angle)
        (L.dropLast ++ [L.getLast hne]) := by rw [hdecomp]; exact P1
    have hcross := (List.pairwise_append.mp P1s).2.2
    have hnopi : ∀ v ∈ L.dropLast, v.angle < piD := by
      intro v hv
      have hvL : v ∈ L := (List.dropLast_sublist L).subset hv
      rcases lt_or_eq_of_le (hrange v hvL).2 with h | h
      · exact h
      · exfalso
        have h1 := hcross v hv (L.getLast hne) (List.mem_singleton_self _)
        have h2 := (hrange (L.getLast hne) (List.getLast_mem hne)).2
        linarith
    have Pdrop := List.Pairwise.sublist (List.dropLast_sublist L) P1
    refine List.Pairwise.imp_of_mem ?_ Pdrop
    intro a b ha hb hg
    have haL : a ∈ L := (List.dropLast_sublist L).subset ha
    have hbL : b ∈ L := (List.dropLast_sublist L).subset hb
    refine hpair a b haL hbL hg ?_
    have := (hrange a haL).1
    have := hnopi b hb
    linarith
  · rw [if_neg hc]
    by_cases hlen : 1 < L.length
    · have hnp : dirsParallel (L.headD default).angle (L.getLastD default).angle tol
          = false := by
        cases hb : dirsParallel (L.headD default).angle (L.getLastD default).angle tol with
        | false => rfl
        | true => exact absurd ⟨hlen, hb⟩ hc
      refine List.Pairwise.imp_of_mem ?_ P1
      intro a b ha hb hg
      have hne : L ≠ [] := by
        intro h
        rw [h] at ha
        cases ha
      rcases lt_or_eq_of_le (show b.angle - a.angle ≤ piD by
        have := (hrange a ha).1
        have := (hrange b hb).2
        linarith) with hlt | hpi
      · exact hpair a b ha hb hg hlt
      · exfalso
        have ha0 : a.angle = 0 := by
          have := (hrange a ha).1
          have := (hrange b hb).2
          linarith
        have hbpi : b.angle = piD := by linarith [ha0]
        have hhead0 : (L.headD default).angle = 0 := by
          have h1 := sorted_headD_le L hsort a ha
          have h2 := (hrange _ (headD_mem L default hne)).1
          linarith [ha0]
        have hlastpi : (L.getLastD default).angle = piD := by
          have h1 := sorted_le_getLastD L default hsort b hb
          have h2 := (hrange _ (getLastD_mem L default hne)).2
          linarith [hbpi]
        have : dirsParallel (L.headD default).angle (L.getLastD default).angle tol
            = true := by
          apply dirsParallel_pi _ _ _ htol
          rw [hhead0, hlastpi]
          ring
        rw [this] at hnp
        cases hnp
    · rcases L with _ | ⟨x, _ | ⟨y, t⟩⟩
      · exact List.Pairwise.nil
      · simp
      · exfalso
        apply hlen
        simp only [List.length_cons]
        omega

/-- The candidate sort sorts by angle. -/
theorem sortBD_sorted (l : List BD0) :
    List.Sorted (fun u v : BD0 => u.angle ≤ v.angle) (sortBD l) :=
  List.sorted_insertionSort _ l

/-- The candidate sort keeps the members. -/
theorem sortBD_subset (l : List BD0) (b : BD0) (hb : b ∈ sortBD l) : b ∈ l :=
  (List.perm_insertionSort _ l).subset hb

/-- The list entering the tolerance-doubling loop is sorted. -/
theorem preShrink_sorted (l : List BD0) :
    List.Sorted (fun u v : BD0 => u.angle ≤ v.angle) (preShrink l) := by
  unfold preShrink
  exact List.Pairwise.sublist (passBrun_sublist _ _)
    (List.Pairwise.sublist (passArun_sublist _ _) (sortBD_sorted l))

/-- The list entering the tolerance-doubling loop keeps the angle range. -/
theorem preShrink_range (l : List BD0) (hr : ∀ b ∈ l, 0 ≤ b.angle ∧ b.angle ≤ piD) :
    ∀ b ∈ preShrink l, 0 ≤ b.angle ∧ b.angle ≤ piD := by
  intro b hb
  unfold preShrink at hb
  exact hr b (sortBD_subset l b
    ((passArun_sublist _ _).subset ((passBrun_sublist _ _).subset hb)))

/-- The list entering the tolerance-doubling loop satisfies the gap
invariant at the initial tolerance `resolution / 8`. -/
theorem preShrink_chain (l : List BD0) (hr : ∀ b ∈ l, 0 ≤ b.angle ∧ b.angle ≤ piD) :
    List.Chain' (gapR (resolutionQ / 8)) (preShrink l) := by
  unfold preShrink
  refine passBrun_chain _ (by norm_num [resolutionQ, piD]) _ ?_ ?_
  · exact List.Pairwise.sublist (passArun_sublist _ _) (sortBD_sorted l)
  · intro b hb
    exact hr b (sortBD_subset l b ((passArun_sublist _ _).subset hb))

/-- Claim C7: whenever every enumerated candidate angle lies in `[0, π]`
(which holds for the uniform samples, the perimeter directions and the edge
directions), no two candidates surviving the complete deduplication of
`bridge_direction_candidates` are parallel within the final tolerance. -/
theorem claim_C7 (l : List BD0) (hr : ∀ b ∈ l, 0 ≤ b.angle ∧ b.angle ≤ piD) :
    List.Pairwise (fun u v : BD0 => dirsParallel u.angle v.angle (dedup l).1 = false)
      (dedup l).2 := by
  have htol0 : (0:ℚ) ≤ resolutionQ / 8 := by norm_num [resolutionQ, piD]
  obtain ⟨hft, hsortR, hrangeR, hchainR⟩ :=
    shrinkIter_inv (dedupFuel (resolutionQ / 8)) (resolutionQ / 8) (preShrink l) htol0
      (preShrink_sorted l) (preShrink_range l hr) (preShrink_chain l hr)
  have := step7_pairwise
    (shrinkIter (dedupFuel (resolutionQ / 8)) (resolutionQ / 8) (preShrink l)).1 hft
    (shrinkIter (dedupFuel (resolutionQ / 8)) (resolutionQ / 8) (preShrink l)).2
    hsortR hrangeR hchainR
  simpa [dedup] using this

/-- Witness for C7 at a concrete input. -/
theorem claim_C7_witness :
    List.Pairwise
      (fun u v : BD0 => dirsParallel u.angle v.angle (dedup [⟨0, 0⟩]).1 = false)
      (dedup [⟨0, 0⟩]).2 :=
  claim_C7 [⟨0, 0⟩] (by
    intro b hb
    rw [List.mem_singleton] at hb
    subst hb
    exact ⟨le_refl 0, le_of_lt piD_pos⟩)

/-- The fuel bound really lets the doubled tolerance reach `piD`. -/
theorem fuel_pow (tol : ℚ) (h : 0 < tol) :
    piD ≤ tol * 2 ^ (⌈piD / tol⌉).toNat := by
  have hq : 0 < piD / tol := div_pos piD_pos h
  have h1 : piD / tol ≤ ((⌈piD / tol⌉ : ℤ) : ℚ) := Int.le_ceil _
  have hcnn : 0 ≤ ⌈piD / tol⌉ := Int.ceil_nonneg (le_of_lt hq)
  have h2 : ((⌈piD / tol⌉ : ℤ) : ℚ) = (((⌈piD / tol⌉).toNat : ℕ) : ℚ) := by
    exact_mod_cast (Int.toNat_of_nonneg hcnn).symm
  have h3 : (((⌈piD / tol⌉).toNat : ℕ) : ℚ) < 2 ^ (⌈piD / tol⌉).toNat := by
    have := Nat.lt_two_pow (⌈piD / tol⌉).toNat
    exact_mod_cast this
  have h4 : piD / tol ≤ 2 ^ (⌈piD / tol⌉).toNat := by
    rw [h2] at h1
    linarith
  rw [div_le_iff₀ h] at h4
  linarith

/-- Claim C8: the deduplication of `bridge_direction_candidates` always
terminates with at most 200 candidates — the tolerance-doubling loop reaches
its exit condition within `dedupFuel` iterations (extra fuel does not change
the result), and the final list, in particular for any enumeration exceeding
200 entries, has at most 200 elements. -/
theorem claim_C8 (l : List BD0) :
    (dedup l).2.length ≤ 200 ∧
    ∀ m, dedupFuel (resolutionQ / 8) ≤ m →
      shrinkIter m (resolutionQ / 8) (preShrink l)
        = shrinkIter (dedupFuel (resolutionQ / 8)) (resolutionQ / 8) (preShrink l) := by
  have htolp : (0:ℚ) < resolutionQ / 8 := by norm_num [resolutionQ, piD]
  have hlen : (shrinkIter (dedupFuel (resolutionQ / 8)) (resolutionQ / 8)
      (preShrink l)).2.length ≤ 200 := by
    have := shrinkIter_le200 (⌈piD / (resolutionQ / 8)⌉).toNat (resolutionQ / 8)
      (preShrink l) htolp (fuel_pow (resolutionQ / 8) htolp)
    exact this
  constructor
  · show (dedup l).2.length ≤ 200
    simp only [dedup]
    split
    · have := List.length_dropLast
        (shrinkIter (dedupFuel (resolutionQ / 8)) (resolutionQ / 8) (preShrink l)).2
      omega
    · exact hlen
  · intro m hm
    induction m, hm using Nat.le_induction with
    | base => rfl
    | succ m hm ih =>
      rw [shrinkIter_stable m _ _ (by rw [ih]; exact hlen)]
      exact ih

/-- Witness instance for C8's inner stability statement at one extra unit of
fuel. -/
theorem claim_C8_witness :
    (dedup [(⟨0, 0⟩ : BD0)]).2.length ≤ 200 ∧
    shrinkIter (dedupFuel (resolutionQ / 8) + 1) (resolutionQ / 8)
        (preShrink [(⟨0, 0⟩ : BD0)])
      = shrinkIter (dedupFuel (resolutionQ / 8)) (resolutionQ / 8)
        (preShrink [(⟨0, 0⟩ : BD0)]) :=
  ⟨(claim_C8 [⟨0, 0⟩]).1, (claim_C8 [⟨0, 0⟩]).2 _ (Nat.le_succ _)⟩

end BridgeSpec
